import Mathlib

/-!
Shallow embedding of the sparse-Merkle-tree engine from
`kevincharm/sparse-merkle-tree`:

* `src/lib/SparseMerkleTree.ts` — the index-addressed TypeScript engine
  (class `SparseMerkleTree`), instantiated with its default options
  (`zeroElement = 0n`, `hashFn = keccak`, identity (de)serialisation —
  `deserialise ∘ serialise = id` on 256-bit values, so digests are embedded
  directly as `Nat` and the hex-string wire form is dropped).
* `src/lib/utils.ts` — the `keccak` wrapper (zero rule).
* `src/contracts/SparseMerkleTree.sol` — the Solidity library
  (`hash`, `computeRoot_REF`, `computeRoot`).

JS `bigint`s are embedded as `Nat`; `(x >> k) & 1n` is embedded as
`x / 2^k % 2` (`bitAt`), `1n << k` as `2^k`, and `x |= b` as `x ||| b`.
The underlying 256-bit keccak permutation is kept abstract as a parameter
(`raw`); the wrappers around it are translated exactly.
-/

/-- One value of the TypeScript `db : Map<bigint, [bigint, bigint, bigint?]>`:
a pair of digests plus an optional third component.  Internal nodes are
stored as `[left, right]` (no third component); leaves are stored as
`[index, leaf, 1n]`. -/
structure Entry where
  c0 : Nat
  c1 : Nat
  tag : Option Nat
deriving DecidableEq, Repr

/-- The content-addressed node store: `Map<bigint, Entry>` embedded as an
association list.  `dbSet` replaces any existing binding (JS `Map.set`)
and `dbDelete` removes the binding (JS `Map.delete`). -/
abbrev DB := List (Nat × Entry)

/-- JS `db.get(k)`. -/
def dbGet : DB → Nat → Option Entry
  | [], _ => none
  | (k', e) :: rest, k => if k = k' then some e else dbGet rest k

/-- JS `db.delete(k)`. -/
def dbDelete : DB → Nat → DB
  | [], _ => []
  | (k', e) :: rest, k =>
      if k = k' then dbDelete rest k else (k', e) :: dbDelete rest k

/-- JS `db.set(k, e)` (replacing semantics). -/
def dbSet (db : DB) (k : Nat) (e : Entry) : DB :=
  (k, e) :: dbDelete db k

/-- `(n >> k) & 1n`: bit `k` of `n`. -/
def bitAt (n k : Nat) : Nat := n / 2 ^ k % 2

/-- `this.db.get(node)?.[j] || this._zeroElement` with the default
`zeroElement = 0n`: component `j` of the stored entry, or `0` when the
node is absent (an absent node stands for the empty subtree
`Internal(0, 0)`).  Note `0n || 0n = 0n` in JS, so a stored zero component
also yields `0`. -/
def childOf (db : DB) (node : Nat) (j : Nat) : Nat :=
  match dbGet db node with
  | none => 0
  | some e => if j = 0 then e.c0 else e.c1

/-- The result record of `SparseMerkleTree.get` (interface `Proof`). -/
structure Proof where
  exists? : Bool
  leaf : Nat
  value : Option Nat
  index : Nat
  enables : Nat
  siblings : List Nat
deriving DecidableEq, Repr

/-- The result record of `upsert` (interface `UpdateProof`). -/
structure UpdateProof extends Proof where
  newLeaf : Nat
deriving DecidableEq, Repr

/-- The `throw`s of the TypeScript engine, as structured values:
`insert` on an existing leaf, `update` on a missing leaf, the
`Invariant error` thrown by `get` when the walked-to digest stores a
2-tuple, and the `Not valid hex` thrown by `deserialise(undefined)` when
`verifyProof` runs out of siblings (`siblings[s++]` out of bounds). -/
inductive TSError
  | leafAlreadyExists (index : Nat)
  | leafDoesNotExist (index : Nat)
  | invariantError (e : Entry)
  | notValidHex
deriving DecidableEq, Repr

/-- The mutable state of a `SparseMerkleTree` instance: the fixed depth,
the node store, the root digest, and the configured binary hash. -/
structure SMT where
  depth : Nat
  db : DB
  root : Nat
  hashFn : Nat → Nat → Nat

/-- The root→leaf loop of `SparseMerkleTree.get`.  `rem` counts the
remaining iterations, so the bit position `depth - i - 1` of the source is
`rem - 1` here (`rem` in the successor case).  A nonzero sibling is
`unshift`ed onto the front of the list and its bit is recorded in
`enables` (`enables |= 1n << pos`). -/
def getGo (db : DB) (index : Nat) : Nat → Nat → List Nat → Nat → Nat × Nat × List Nat
  | child, enables, sibs, 0 => (child, enables, sibs)
  | child, enables, sibs, rem+1 =>
      let j := bitAt index rem
      let sibling := childOf db child (1 - j)
      let child' := childOf db child j
      if 0 < sibling then
        getGo db index child' (enables ||| 2 ^ rem) (sibling :: sibs) rem
      else
        getGo db index child' enables sibs rem

/-- `SparseMerkleTree.get`: walk root→leaf consuming index bits MSB→LSB,
then look the reached digest up in the store; a stored 2-tuple at the
leaf position is the `Invariant error` throw. -/
def SMT.get (t : SMT) (index : Nat) : Except TSError Proof :=
  match getGo t.db index t.root 0 [] t.depth with
  | (child, enables, sibs) =>
    match dbGet t.db child with
    | none => .ok ⟨false, child, none, index, enables, sibs⟩
    | some e =>
        if e.tag.isSome then .ok ⟨true, child, some e.c1, index, enables, sibs⟩
        else .error (.invariantError e)

/-- The leaf→root loop of `SparseMerkleTree.verifyProof`.  `i` is the loop
counter of the source (bits are consumed LSB→MSB), `s` the running index
into `siblings` (`siblings[s++]`), `rem` the remaining iterations.
`siblings[s]` out of bounds is the `deserialise(undefined)` throw. -/
def verifyGo (h : Nat → Nat → Nat) (index enables : Nat) (siblings : List Nat) :
    Nat → Nat → Nat → Nat → Except TSError Nat
  | _i, root, _s, 0 => .ok root
  | i, root, s, rem+1 =>
      if bitAt enables i = 1 then
        match siblings[s]? with
        | none => .error .notValidHex
        | some sib =>
            verifyGo h index enables siblings (i+1)
              (if bitAt index i = 1 then h sib root else h root sib) (s+1) rem
      else
        verifyGo h index enables siblings (i+1)
          (if bitAt index i = 1 then h 0 root else h root 0) s rem

/-- `SparseMerkleTree.verifyProof`: rebuild the root leaf→root and compare
with the stored root. -/
def SMT.verifyProof (t : SMT) (leaf index enables : Nat) (siblings : List Nat) :
    Except TSError Bool :=
  (verifyGo t.hashFn index enables siblings 0 leaf 0 t.depth).map (· == t.root)

/-- The loop of `SparseMerkleTree.exists`: walk down, breaking early on a
zero child. -/
def existsGo (db : DB) (index : Nat) : Nat → Nat → Nat
  | leaf, 0 => leaf
  | leaf, rem+1 =>
      let leaf' := childOf db leaf (bitAt index rem)
      if leaf' = 0 then leaf' else existsGo db index leaf' rem

/-- `SparseMerkleTree.exists`: true iff the walk ends on a nonzero digest. -/
def SMT.existsB (t : SMT) (index : Nat) : Bool :=
  existsGo t.db index t.root t.depth != 0

/-- Step 1 of `upsert`: walk root→leaf, reading each node's two children
before deleting it, collecting the sibling at every level (`siblings.push`,
so the returned list is in root→leaf order). -/
def delWalk (index : Nat) : DB → Nat → Nat → DB × List Nat
  | db, _parent, 0 => (db, [])
  | db, parent, rem+1 =>
      let j := bitAt index rem
      let sibling := childOf db parent (1 - j)
      let next := childOf db parent j
      let res := delWalk index (dbDelete db parent) next rem
      (res.1, sibling :: res.2)

/-- Step 3 of `upsert`: walk leaf→root consuming index bits LSB→MSB,
combining the running child with the next sibling (`siblings.pop()` takes
from the end of the pushed list, i.e. the head of its reverse — callers
pass the reversed list), storing each new internal node. -/
def buildWalk (h : Nat → Nat → Nat) (index : Nat) : DB → Nat → List Nat → Nat → Nat → DB × Nat
  | db, child, _sibs, _i, 0 => (db, child)
  | db, child, sibs, i, rem+1 =>
      let j := bitAt index i
      let l := if j = 1 then sibs.headD 0 else child
      let r := if j = 1 then child else sibs.headD 0
      buildWalk h index (dbSet db (h l r) ⟨l, r, none⟩) (h l r) sibs.tail (i+1) rem

/-- `SparseMerkleTree.upsert`: capture the pre-image proof, delete the
stale path collecting siblings, store the new leaf entry
`[index, newLeaf, 1n]`, rebuild the path bottom-up and set the new root.
The state is threaded explicitly; a throw inside `get` happens before any
write, so the error case returns the untouched state. -/
def SMT.upsert (t : SMT) (index newLeaf : Nat) : Except TSError UpdateProof × SMT :=
  match t.get index with
  | .error e => (.error e, t)
  | .ok proof =>
      let del := delWalk proof.index t.db t.root t.depth
      let db2 := dbSet del.1 newLeaf ⟨index, newLeaf, some 1⟩
      let built := buildWalk t.hashFn proof.index db2 newLeaf del.2.reverse 0 t.depth
      (.ok ⟨proof, newLeaf⟩, { t with db := built.1, root := built.2 })

/-- `SparseMerkleTree.insert`: throws if the index already holds a leaf;
the check precedes any mutation. -/
def SMT.insert (t : SMT) (index leaf : Nat) : Except TSError UpdateProof × SMT :=
  if t.existsB index then (.error (.leafAlreadyExists index), t)
  else t.upsert index leaf

/-- `SparseMerkleTree.update`: throws if the index holds no leaf;
the check precedes any mutation. -/
def SMT.update (t : SMT) (index newLeaf : Nat) : Except TSError UpdateProof × SMT :=
  if t.existsB index then t.upsert index newLeaf
  else (.error (.leafDoesNotExist index), t)

/-- `keccak` of `src/lib/utils.ts`: returns `0` when every input is zero,
otherwise the raw 256-bit keccak digest of the concatenated inputs.  The
raw permutation is abstract (`raw`). -/
def keccak (raw : List Nat → Nat) (inputs : List Nat) : Nat :=
  if inputs.all (· == 0) then 0 else raw inputs

/-- The `SparseMerkleTree` constructor with default options: zero root,
empty store, depth as given, binary hash = the `keccak` wrapper. -/
def SMT.new (depth : Nat) (raw : List Nat → Nat) : SMT :=
  ⟨depth, [], 0, fun a b => keccak raw [a, b]⟩

/-- The reverts of the Solidity library: `InvalidTreeDepth`, `OutOfRange`,
the checked-array-access panic of `computeRoot_REF`'s `siblings[s++]`, and
the explicit `revert(0, 0)` of the Yul loop. -/
inductive SolError
  | invalidTreeDepth (treeDepth : Nat)
  | outOfRange (index : Nat)
  | arrayOutOfBounds
  | emptyRevert
deriving DecidableEq, Repr

/-- `SparseMerkleTree.hash` (Solidity): keccak of the two words, except
that `hash(0, 0) = 0`. -/
def solHash (raw : Nat → Nat → Nat) (l r : Nat) : Nat :=
  if l = 0 ∧ r = 0 then 0 else raw l r

/-- The loop of `computeRoot_REF` (Solidity reference implementation):
bits LSB→MSB, sibling from the calldata array when enabled (bounds-checked
access) else zero, fold with `solHash`. -/
def refGo (raw : Nat → Nat → Nat) (index enables : Nat) (siblings : List Nat) :
    Nat → Nat → Nat → Nat → Except SolError Nat
  | _i, leaf, _s, 0 => .ok leaf
  | i, leaf, s, rem+1 =>
      if bitAt enables i = 1 then
        match siblings[s]? with
        | none => .error .arrayOutOfBounds
        | some sib =>
            refGo raw index enables siblings (i+1)
              (if bitAt index i = 1 then solHash raw sib leaf else solHash raw leaf sib) (s+1) rem
      else
        refGo raw index enables siblings (i+1)
          (if bitAt index i = 1 then solHash raw 0 leaf else solHash raw leaf 0) s rem

/-- `SparseMerkleTree.computeRoot_REF`: depth and capacity guards, then
the reference fold. -/
def computeRoot_REF (raw : Nat → Nat → Nat) (treeDepth leaf index enables : Nat)
    (siblings : List Nat) : Except SolError Nat :=
  if 256 < treeDepth then .error (.invalidTreeDepth treeDepth)
  else if treeDepth < 256 ∧ 2 ^ treeDepth ≤ index then .error (.outOfRange index)
  else refGo raw index enables siblings 0 leaf 0 treeDepth

/-- The Yul loop of `computeRoot`: sibling loaded from calldata after an
explicit bounds check (`revert(0, 0)` otherwise), raw keccak of the
arranged pair, and the hardcoded digest
`0xad32…5fb5 = keccak256(abi.encode(0, 0))` — `raw 0 0` here — remapped
to `0`. -/
def yulGo (raw : Nat → Nat → Nat) (index enables : Nat) (siblings : List Nat) :
    Nat → Nat → Nat → Nat → Except SolError Nat
  | _i, leaf, _s, 0 => .ok leaf
  | i, leaf, s, rem+1 =>
      if bitAt enables i = 1 then
        if siblings.length ≤ s then .error .emptyRevert
        else
          let h0 := if bitAt index i = 1 then raw (siblings.getD s 0) leaf
                    else raw leaf (siblings.getD s 0)
          yulGo raw index enables siblings (i+1) (if h0 = raw 0 0 then 0 else h0) (s+1) rem
      else
        let h0 := if bitAt index i = 1 then raw 0 leaf else raw leaf 0
        yulGo raw index enables siblings (i+1) (if h0 = raw 0 0 then 0 else h0) s rem

/-- `SparseMerkleTree.computeRoot` (optimised Yul implementation): same
guards as the reference, then the Yul fold. -/
def computeRoot (raw : Nat → Nat → Nat) (treeDepth leaf index enables : Nat)
    (siblings : List Nat) : Except SolError Nat :=
  if 256 < treeDepth then .error (.invalidTreeDepth treeDepth)
  else if treeDepth < 256 ∧ 2 ^ treeDepth ≤ index then .error (.outOfRange index)
  else yulGo raw index enables siblings 0 leaf 0 treeDepth

/-- Number of set bits (used by the spec's `popcount(enables)`). -/
def popcount : Nat → Nat
  | 0 => 0
  | n+1 => (n+1) % 2 + popcount ((n+1) / 2)
decreasing_by exact Nat.div_lt_self (Nat.succ_pos n) (by omega)

/-- The node digest reached from `child` after `rem` further steps of the
root→leaf walk, consuming bit positions `i+rem-1, …, i` of the index
(pure view of the traversal shared by `get`, `exists` and `upsert`; the
full walk is `walkN db index root 0 depth`). -/
def walkN (db : DB) (index : Nat) : Nat → Nat → Nat → Nat
  | child, _i, 0 => child
  | child, i, rem+1 => walkN db index (childOf db child (bitAt index (i+rem))) i rem

/-- The internal-node digests visited by the root→leaf walk (the reached
leaf excluded), in visit order. -/
def pathNodes (db : DB) (index : Nat) : Nat → Nat → Nat → List Nat
  | _child, _i, 0 => []
  | child, i, rem+1 =>
      child :: pathNodes db index (childOf db child (bitAt index (i+rem))) i rem

/-- The sibling digest seen at each step of the root→leaf walk, in visit
order (bit position descending). -/
def walkSibs (db : DB) (index : Nat) : Nat → Nat → Nat → List Nat
  | _child, _i, 0 => []
  | child, i, rem+1 =>
      childOf db child (1 - bitAt index (i+rem)) ::
        walkSibs db index (childOf db child (bitAt index (i+rem))) i rem

/-- Content-addressing integrity along the walk: every visited node's
digest is the configured hash of its two children in path order. -/
def pathConsistentB (h : Nat → Nat → Nat) (db : DB) (index : Nat) : Nat → Nat → Nat → Bool
  | _child, _i, 0 => true
  | child, i, rem+1 =>
      let j := bitAt index (i+rem)
      (child == (if j = 1 then h (childOf db child (1 - j)) (childOf db child j)
                 else h (childOf db child j) (childOf db child (1 - j)))) &&
        pathConsistentB h db index (childOf db child j) i rem

/-- The `enables` bitmap accumulated by the `get` walk from `child` with
`rem` remaining steps (bit positions `i+rem-1, …, i`). -/
def enOf (db : DB) (index : Nat) : Nat → Nat → Nat → Nat
  | _child, _i, 0 => 0
  | child, i, rem+1 =>
      if 0 < childOf db child (1 - bitAt index (i+rem)) then
        2 ^ (i+rem) ||| enOf db index (childOf db child (bitAt index (i+rem))) i rem
      else enOf db index (childOf db child (bitAt index (i+rem))) i rem

/-- The siblings list accumulated by the `get` walk: the nonzero walk
siblings in ascending bit-position (nearest-to-leaf-first) order. -/
def sibsOf (db : DB) (index : Nat) : Nat → Nat → Nat → List Nat
  | _child, _i, 0 => []
  | child, i, rem+1 =>
      sibsOf db index (childOf db child (bitAt index (i+rem))) i rem ++
        (if 0 < childOf db child (1 - bitAt index (i+rem)) then
          [childOf db child (1 - bitAt index (i+rem))] else [])

/-- Number of set `enables` bits among positions `i, …, i+rem-1`: how many
siblings the verifier consumes over those levels. -/
def countEnabled (enables : Nat) : Nat → Nat → Nat
  | _i, 0 => 0
  | i, rem+1 => bitAt enables i + countEnabled enables (i+1) rem

/-- The chain of new parent digests written by `buildWalk`, bottom-up
(pure view; same recursion without the store). -/
def buildChain (h : Nat → Nat → Nat) (index : Nat) : Nat → List Nat → Nat → Nat → List Nat
  | _child, _sibs, _i, 0 => []
  | child, sibs, i, rem+1 =>
      let j := bitAt index i
      let l := if j = 1 then sibs.headD 0 else child
      let r := if j = 1 then child else sibs.headD 0
      h l r :: buildChain h index (h l r) sibs.tail (i+1) rem

/-! ### Concrete fixtures used by the witness theorems -/

/-- A concrete stand-in for the raw keccak permutation (injective enough
for the small witness trees below). -/
def rawFix : List Nat → Nat := fun xs => xs.foldl (fun a x => a * 1000 + x + 1) 3

/-- A concrete binary stand-in for raw keccak with the property that only
`(0, 0)` hashes to `rawPair 0 0`. -/
def rawPair : Nat → Nat → Nat := fun a b => (a + 1) * 1000 + b

/-- A depth-2 tree holding leaf `5` at index `1`. -/
def tFix1 : SMT := ((SMT.new 2 rawFix).insert 1 5).2

/-- `tFix1` with leaf `7` additionally inserted at index `0`. -/
def tFix2 : SMT := (tFix1.insert 0 7).2

/-! ### Theorems -/

/-! #### Store lemmas -/

theorem dbGet_dbDelete_ne (db : DB) (k k' : Nat) (h : k' ≠ k) :
    dbGet (dbDelete db k) k' = dbGet db k' := by
  induction db with
  | nil => rfl
  | cons a rest ih =>
      obtain ⟨ka, ea⟩ := a
      by_cases hk : k = ka
      · subst hk
        simp [dbDelete, dbGet, ih, h]
      · by_cases hk' : k' = ka <;> simp [dbDelete, dbGet, hk, hk', ih]

theorem dbGet_dbSet_self (db : DB) (k : Nat) (e : Entry) :
    dbGet (dbSet db k e) k = some e := by
  simp [dbSet, dbGet]

theorem dbGet_dbSet_ne (db : DB) (k : Nat) (e : Entry) (k' : Nat) (h : k' ≠ k) :
    dbGet (dbSet db k e) k' = dbGet db k' := by
  simp [dbSet, dbGet, h]
  exact dbGet_dbDelete_ne db k k' h

theorem childOf_dbDelete_ne (db : DB) (k n j : Nat) (h : n ≠ k) :
    childOf (dbDelete db k) n j = childOf db n j := by
  simp [childOf, dbGet_dbDelete_ne db k n h]

theorem childOf_dbSet_ne (db : DB) (k : Nat) (e : Entry) (n j : Nat) (h : n ≠ k) :
    childOf (dbSet db k e) n j = childOf db n j := by
  simp [childOf, dbGet_dbSet_ne db k e n h]

/-! #### Bit lemmas -/

theorem bitAt_lt_two (n k : Nat) : bitAt n k < 2 :=
  Nat.mod_lt _ (by omega)

theorem bitAt_zero_left (k : Nat) : bitAt 0 k = 0 := by
  simp [bitAt]

theorem bitAt_eq_toNat (n k : Nat) : bitAt n k = (n.testBit k).toNat := by
  have h := Nat.testBit_to_div_mod (x := n) (i := k)
  rcases Nat.mod_two_eq_zero_or_one (n / 2 ^ k) with h2 | h2 <;>
    simp [bitAt, h2] at h ⊢ <;> simp [h]

theorem bitAt_two_pow_or_self (q e : Nat) : bitAt (2 ^ q ||| e) q = 1 := by
  rw [bitAt_eq_toNat, Nat.testBit_or, Nat.testBit_two_pow]
  simp

theorem bitAt_two_pow_or_ne (q e p : Nat) (h : p ≠ q) :
    bitAt (2 ^ q ||| e) p = bitAt e p := by
  rw [bitAt_eq_toNat, bitAt_eq_toNat, Nat.testBit_or, Nat.testBit_two_pow]
  simp [Ne.symm h]

theorem bitAt_eq_zero_of_lt (e p : Nat) (h : e < 2 ^ p) : bitAt e p = 0 := by
  simp [bitAt, Nat.div_eq_of_lt h]

/-! #### C9: the zero rule of the combine primitive -/

/-- C9: the offchain `keccak` wrapper and the onchain library `hash` return
the zero digest exactly on zero inputs, assuming the underlying raw keccak
never maps a nonzero input to the zero digest (the spec's reserved-zero
collision assumption). -/
theorem combine_zero_rule (raw : List Nat → Nat) (rawS : Nat → Nat → Nat)
    (hraw : ∀ xs : List Nat, xs.all (· == 0) = false → raw xs ≠ 0)
    (hrawS : ∀ a b : Nat, ¬(a = 0 ∧ b = 0) → rawS a b ≠ 0) (a b : Nat) :
    (keccak raw [a, b] = 0 ↔ a = 0 ∧ b = 0) ∧
    (solHash rawS a b = 0 ↔ a = 0 ∧ b = 0) := by
  constructor
  · unfold keccak
    by_cases hz : a = 0 ∧ b = 0
    · obtain ⟨ha, hb⟩ := hz
      subst ha; subst hb
      simp
    · have hall : ([a, b].all (· == 0)) = false := by
        rcases Decidable.not_and_iff_or_not.mp hz with h | h <;> simp [List.all, h]
      simp [hall, hraw _ hall, hz]
  · unfold solHash
    by_cases hz : a = 0 ∧ b = 0
    · simp [hz]
    · simp [hz, hrawS a b hz]

/-- Witness for `combine_zero_rule` at raw functions that never return `0`
and at the concrete input `(1, 0)`. -/
theorem combine_zero_rule_witness :
    (keccak (fun _ => 1) [1, 0] = 0 ↔ 1 = 0 ∧ 0 = 0) ∧
    (solHash (fun _ _ => 1) 1 0 = 0 ↔ 1 = 0 ∧ 0 = 0) :=
  combine_zero_rule (fun _ => 1) (fun _ _ => 1)
    (fun _ _ => by simp) (fun _ _ _ => by simp) 1 0

/-! #### C4: insert/update precondition failures leave the state untouched -/

/-- C4: `insert` rejects when a leaf already exists at the index and
`update` rejects when none does; in both cases the rejection happens before
`upsert` runs, so the returned state (store and root) is exactly the input
state. -/
theorem insert_update_reject_before_mutation (t : SMT) (i v : Nat) :
    (t.existsB i = true → t.insert i v = (.error (.leafAlreadyExists i), t)) ∧
    (t.existsB i = false → t.update i v = (.error (.leafDoesNotExist i), t)) := by
  constructor <;> intro h <;> simp [SMT.insert, SMT.update, h]

/-- Witness for `insert_update_reject_before_mutation` on a depth-2 tree
holding a leaf at index 1: `insert` at 1 and `update` at 0 both reject and
return the unchanged state. -/
theorem insert_update_reject_before_mutation_witness :
    tFix1.insert 1 9 = (.error (.leafAlreadyExists 1), tFix1) ∧
    tFix1.update 0 9 = (.error (.leafDoesNotExist 0), tFix1) :=
  ⟨(insert_update_reject_before_mutation tFix1 1 9).1 (by decide),
   (insert_update_reject_before_mutation tFix1 0 9).2 (by decide)⟩

/-! #### C7: the empty tree -/

theorem getGo_empty (index : Nat) : ∀ rem : Nat, getGo [] index 0 0 [] rem = (0, 0, []) := by
  intro rem
  induction rem with
  | zero => rfl
  | succ n ih => simpa [getGo, childOf, dbGet] using ih

theorem verifyGo_keccak_zero (raw : List Nat → Nat) (index : Nat) :
    ∀ rem i s : Nat,
      verifyGo (fun a b => keccak raw [a, b]) index 0 [] i 0 s rem = .ok 0 := by
  intro rem
  induction rem with
  | zero => intro i s; rfl
  | succ n ih =>
      intro i s
      simpa [verifyGo, bitAt_zero_left, keccak] using ih (i+1) s

/-- C7: a freshly constructed tree has root `0`; `get` at any index returns
`exists = false`, `leaf = 0`, `enables = 0`, no siblings; and verifying
that non-membership proof reconstructs root `0`, so `verifyProof` accepts. -/
theorem empty_tree_nonmembership (raw : List Nat → Nat) (depth i : Nat) :
    (SMT.new depth raw).root = 0 ∧
    (SMT.new depth raw).get i = .ok ⟨false, 0, none, i, 0, []⟩ ∧
    (SMT.new depth raw).verifyProof 0 i 0 [] = .ok true := by
  refine ⟨rfl, ?_, ?_⟩
  · simp [SMT.get, SMT.new, getGo_empty, dbGet]
  · simp [SMT.verifyProof, SMT.new, verifyGo_keccak_zero, Except.map]

/-! #### C2: capacity enforcement -/

/-- Counterexample to C2 as stated: the TypeScript `get` performs no
capacity check at all — on a depth-1 tree it accepts index `2 ≥ 2^1` and
returns an ordinary (aliased) proof instead of a capacity-violation
error. -/
theorem ts_get_accepts_out_of_range_index :
    (SMT.new 1 rawFix).get 2 = .ok ⟨false, 0, none, 2, 0, []⟩ := rfl

/-- C2 (amended): only the Solidity verifiers enforce capacity — for
`D < 256` and `index ≥ 2^D` both `computeRoot_REF` and `computeRoot`
revert with `OutOfRange` before touching the proof. -/
theorem sol_verifiers_reject_out_of_range (raw : Nat → Nat → Nat)
    (d leaf i e : Nat) (s : List Nat) (hd : d < 256) (hi : 2 ^ d ≤ i) :
    computeRoot_REF raw d leaf i e s = .error (.outOfRange i) ∧
    computeRoot raw d leaf i e s = .error (.outOfRange i) := by
  have h256 : ¬ 256 < d := by omega
  constructor <;> simp [computeRoot_REF, computeRoot, hd, hi, h256]

/-- Witness for `sol_verifiers_reject_out_of_range` at depth 8,
index 256. -/
theorem sol_verifiers_reject_out_of_range_witness :
    computeRoot_REF rawPair 8 1 256 0 [] = .error (.outOfRange 256) ∧
    computeRoot rawPair 8 1 256 0 [] = .error (.outOfRange 256) :=
  sol_verifiers_reject_out_of_range rawPair 8 1 256 0 [] (by decide) (by decide)

/-! #### C3: sibling-count enforcement -/

/-- Counterexample to C3 as stated: a surplus sibling is silently ignored —
on an (empty) depth-1 tree, a proof with `enables = 0` but a nonempty
siblings list verifies successfully instead of failing. -/
theorem verifyProof_accepts_surplus_siblings :
    (SMT.new 1 rawFix).verifyProof 0 0 0 [5] = .ok true := rfl

/-! #### Characterisation of the `get` walk -/

theorem getGo_spec (db : DB) (index : Nat) :
    ∀ (rem child en : Nat) (acc : List Nat),
      getGo db index child en acc rem =
        (walkN db index child 0 rem, en ||| enOf db index child 0 rem,
         sibsOf db index child 0 rem ++ acc) := by
  intro rem
  induction rem with
  | zero => intro child en acc; simp [getGo, walkN, enOf, sibsOf]
  | succ n ih =>
      intro child en acc
      by_cases hs : 0 < childOf db child (1 - bitAt index n)
      · simp only [getGo, walkN, enOf, sibsOf, hs, if_pos, Nat.zero_add, ih, Prod.mk.injEq]
        simp [Nat.lor_assoc]
      · simp only [getGo, walkN, enOf, sibsOf, hs, if_neg, not_false_iff, Nat.zero_add, ih,
          Prod.mk.injEq]
        simp [hs]

theorem get_spec (t : SMT) (i : Nat) (pr : Proof) (h : t.get i = .ok pr) :
    pr.leaf = walkN t.db i t.root 0 t.depth ∧ pr.index = i ∧
    pr.enables = enOf t.db i t.root 0 t.depth ∧
    pr.siblings = sibsOf t.db i t.root 0 t.depth := by
  unfold SMT.get at h
  rw [getGo_spec] at h
  simp only [Nat.zero_or, List.append_nil] at h
  rcases hdb : dbGet t.db (walkN t.db i t.root 0 t.depth) with _ | e <;> rw [hdb] at h
  · cases h; exact ⟨rfl, rfl, rfl, rfl⟩
  · by_cases ht : e.tag.isSome <;> simp [ht] at h
    cases h; exact ⟨rfl, rfl, rfl, rfl⟩

/-! #### popcount lemmas -/

theorem popcount_zero : popcount 0 = 0 := by
  simp [popcount]

theorem popcount_eq (n : Nat) : popcount n = n % 2 + popcount (n / 2) := by
  cases n with
  | zero => simp [popcount]
  | succ m => simp [popcount]

theorem bitAt_zero_idx (n : Nat) : bitAt n 0 = n % 2 := by
  simp [bitAt]

theorem popcount_two_pow_or (p : Nat) :
    ∀ e : Nat, e < 2 ^ p → popcount (2 ^ p ||| e) = popcount e + 1 := by
  induction p with
  | zero =>
      intro e he
      have he0 : e = 0 := Nat.lt_one_iff.mp (by simpa using he)
      subst he0
      rw [Nat.pow_zero, Nat.or_zero, popcount_eq 1]
      norm_num [popcount_zero]
  | succ p ih =>
      intro e he
      have h2 : (2 ^ (p+1) ||| e) % 2 = e % 2 := by
        have := bitAt_two_pow_or_ne (p+1) e 0 (by omega)
        rwa [bitAt_zero_idx, bitAt_zero_idx] at this
      have h3 : (2 ^ (p+1) ||| e) / 2 = 2 ^ p ||| (e / 2) := by
        apply Nat.eq_of_testBit_eq
        intro k
        simp only [Nat.testBit_div_two, Nat.testBit_or, Nat.testBit_two_pow]
        by_cases hpk : p = k <;> simp [hpk]
      have h4 : e / 2 < 2 ^ p := by
        apply Nat.div_lt_of_lt_mul
        rw [Nat.pow_succ] at he
        omega
      rw [popcount_eq ((2:Nat) ^ (p+1) ||| e), h2, h3, ih (e / 2) h4, popcount_eq e]
      omega

theorem enOf_lt (db : DB) (index : Nat) :
    ∀ (rem child i : Nat), enOf db index child i rem < 2 ^ (i + rem) := by
  intro rem
  induction rem with
  | zero => intro child i; simp [enOf, Nat.two_pow_pos]
  | succ n ih =>
      intro child i
      have hlt : (2:Nat) ^ (i + n) < 2 ^ (i + (n+1)) := by
        apply Nat.pow_lt_pow_right (by omega)
        omega
      by_cases hs : 0 < childOf db child (1 - bitAt index (i + n)) <;>
        simp only [enOf, hs, if_pos, if_neg, not_false_iff]
      · exact Nat.or_lt_two_pow hlt (lt_trans (ih _ i) hlt)
      · exact lt_trans (ih _ i) hlt

theorem popcount_enOf (db : DB) (index : Nat) :
    ∀ (rem child i : Nat),
      popcount (enOf db index child i rem) = (sibsOf db index child i rem).length := by
  intro rem
  induction rem with
  | zero => intro child i; simp [enOf, sibsOf, popcount]
  | succ n ih =>
      intro child i
      by_cases hs : 0 < childOf db child (1 - bitAt index (i + n)) <;>
        simp only [enOf, sibsOf, hs, if_pos, if_neg, not_false_iff]
      · rw [popcount_two_pow_or (i + n) _ (enOf_lt db index n _ i)]
        simp [ih]
      · simp [ih]

theorem sibsOf_length_le (db : DB) (index : Nat) :
    ∀ (rem child i : Nat), (sibsOf db index child i rem).length ≤ rem := by
  intro rem
  induction rem with
  | zero => intro child i; simp [sibsOf]
  | succ n ih =>
      intro child i
      by_cases hs : 0 < childOf db child (1 - bitAt index (i + n)) <;>
        simp only [sibsOf, hs, if_pos, if_neg, not_false_iff] <;>
        simp [ih]
      have := ih (childOf db child (bitAt index (i + n))) i
      omega

theorem sibsOf_mem_pos (db : DB) (index : Nat) :
    ∀ (rem child i : Nat) (x : Nat), x ∈ sibsOf db index child i rem → 0 < x := by
  intro rem
  induction rem with
  | zero => intro child i x hx; simp [sibsOf] at hx
  | succ n ih =>
      intro child i x hx
      by_cases hs : 0 < childOf db child (1 - bitAt index (i + n)) <;>
        simp only [sibsOf, hs, if_pos, if_neg, not_false_iff, List.mem_append] at hx
      · rcases hx with hx | hx
        · exact ih _ i x hx
        · simp at hx; omega
      · rcases hx with hx | hx
        · exact ih _ i x hx
        · simp at hx

theorem sibsOf_eq_filter (db : DB) (index : Nat) :
    ∀ (rem child i : Nat),
      sibsOf db index child i rem =
        ((walkSibs db index child i rem).reverse).filter (fun x => x != 0) := by
  intro rem
  induction rem with
  | zero => intro child i; simp [sibsOf, walkSibs]
  | succ n ih =>
      intro child i
      rcases Nat.eq_zero_or_pos (childOf db child (1 - bitAt index (i + n))) with hz | hs
      · simp only [sibsOf, walkSibs, hz, List.reverse_cons, List.filter_append, ih]
        simp
      · have hne : (childOf db child (1 - bitAt index (i + n)) != 0) = true := by
          simp
          omega
        simp only [sibsOf, walkSibs, hs, if_pos, List.reverse_cons, List.filter_append, ih]
        simp [List.filter, hne]

/-! #### C6: shape of generated proofs -/

/-- C6: every proof returned by `get` has exactly `popcount(enables)`
siblings, at most `depth` of them, all nonzero, and they are ordered
nearest-to-leaf first: the list equals the per-level walk siblings in
ascending level order with the zero siblings omitted. -/
theorem get_proof_invariants (t : SMT) (i : Nat) (pr : Proof)
    (h : t.get i = .ok pr) :
    pr.siblings.length = popcount pr.enables ∧
    popcount pr.enables ≤ t.depth ∧
    (∀ x ∈ pr.siblings, x ≠ 0) ∧
    pr.siblings = ((walkSibs t.db i t.root 0 t.depth).reverse).filter (fun x => x != 0) := by
  obtain ⟨hleaf, hidx, hen, hsib⟩ := get_spec t i pr h
  refine ⟨?_, ?_, ?_, ?_⟩
  · rw [hen, hsib, popcount_enOf]
  · rw [hen, popcount_enOf]
    exact sibsOf_length_le t.db i t.depth t.root 0
  · intro x hx
    rw [hsib] at hx
    exact Nat.pos_iff_ne_zero.mp (sibsOf_mem_pos t.db i t.depth t.root 0 x hx)
  · rw [hsib, sibsOf_eq_filter]

/-- Witness for `get_proof_invariants` on a depth-2 tree holding leaves at
indices 0 and 1, queried at index 0 (one nonzero sibling). -/
theorem get_proof_invariants_witness :
    (⟨true, 7, some 7, 0, 1, [5]⟩ : Proof).siblings.length =
        popcount (⟨true, 7, some 7, 0, 1, [5]⟩ : Proof).enables ∧
    popcount (⟨true, 7, some 7, 0, 1, [5]⟩ : Proof).enables ≤ tFix2.depth ∧
    (∀ x ∈ (⟨true, 7, some 7, 0, 1, [5]⟩ : Proof).siblings, x ≠ 0) ∧
    (⟨true, 7, some 7, 0, 1, [5]⟩ : Proof).siblings =
      ((walkSibs tFix2.db 0 tFix2.root 0 tFix2.depth).reverse).filter (fun x => x != 0) :=
  get_proof_invariants tFix2 0 ⟨true, 7, some 7, 0, 1, [5]⟩ rfl

/-! #### C10: the engine reads only the low `depth` index bits -/

theorem bitAt_mod_pow (i d k : Nat) (h : k < d) : bitAt (i % 2 ^ d) k = bitAt i k := by
  unfold bitAt
  have hd : (2:Nat) ^ d = 2 ^ k * 2 ^ (d - k) := by
    rw [← pow_add]
    congr 1
    omega
  rw [hd, Nat.mod_mul_right_div_self]
  have h2 : (2:Nat) ∣ 2 ^ (d - k) := by
    have := Nat.pow_dvd_pow 2 (show 1 ≤ d - k by omega)
    simpa using this
  exact Nat.mod_mod_of_dvd _ h2

theorem getGo_index_congr (db : DB) (idx idx' : Nat) :
    ∀ rem : Nat, (∀ p, p < rem → bitAt idx p = bitAt idx' p) →
      ∀ (child en : Nat) (acc : List Nat),
        getGo db idx child en acc rem = getGo db idx' child en acc rem := by
  intro rem
  induction rem with
  | zero => intro _ child en acc; rfl
  | succ n ih =>
      intro hb child en acc
      simp only [getGo, hb n (by omega)]
      exact if 0 < childOf db child (1 - bitAt idx' n) then
        by simp [ih (fun p hp => hb p (by omega))] else
        by simp [ih (fun p hp => hb p (by omega))]

theorem existsGo_index_congr (db : DB) (idx idx' : Nat) :
    ∀ rem : Nat, (∀ p, p < rem → bitAt idx p = bitAt idx' p) →
      ∀ leaf : Nat, existsGo db idx leaf rem = existsGo db idx' leaf rem := by
  intro rem
  induction rem with
  | zero => intro _ leaf; rfl
  | succ n ih =>
      intro hb leaf
      simp only [existsGo, hb n (by omega), ih (fun p hp => hb p (by omega))]

theorem delWalk_index_congr (idx idx' : Nat) :
    ∀ rem : Nat, (∀ p, p < rem → bitAt idx p = bitAt idx' p) →
      ∀ (db : DB) (parent : Nat),
        delWalk idx db parent rem = delWalk idx' db parent rem := by
  intro rem
  induction rem with
  | zero => intro _ db parent; rfl
  | succ n ih =>
      intro hb db parent
      simp only [delWalk, hb n (by omega), ih (fun p hp => hb p (by omega))]

theorem buildWalk_snd_congr (h : Nat → Nat → Nat) (idx idx' : Nat) :
    ∀ rem : Nat, ∀ i : Nat, (∀ p, p < i + rem → bitAt idx p = bitAt idx' p) →
      ∀ (db db' : DB) (child : Nat) (sibs : List Nat),
        (buildWalk h idx db child sibs i rem).2 =
          (buildWalk h idx' db' child sibs i rem).2 := by
  intro rem
  induction rem with
  | zero => intro i _ db db' child sibs; rfl
  | succ n ih =>
      intro i hb db db' child sibs
      simp only [buildWalk, hb i (by omega)]
      exact ih (i+1) (fun p hp => hb p (by omega)) _ _ _ _

/-- C10: `exists`, `get` and `upsert` read only the `depth` least
significant bits of the index — each behaves at index `i` exactly as at
`i mod 2^depth`; for `get` the returned proof differs only in its echoed
`index` field, and `upsert` produces the identical new root. -/
theorem ts_low_bits_alias (t : SMT) (i v : Nat) :
    t.existsB i = t.existsB (i % 2 ^ t.depth) ∧
    t.get i = (t.get (i % 2 ^ t.depth)).map (fun pr => { pr with index := i }) ∧
    (t.upsert i v).2.root = (t.upsert (i % 2 ^ t.depth) v).2.root := by
  have hb : ∀ p, p < t.depth → bitAt i p = bitAt (i % 2 ^ t.depth) p :=
    fun p hp => (bitAt_mod_pow i t.depth p hp).symm
  have hgo : getGo t.db i t.root 0 [] t.depth = getGo t.db (i % 2 ^ t.depth) t.root 0 [] t.depth :=
    getGo_index_congr t.db i (i % 2 ^ t.depth) t.depth hb t.root 0 []
  have hget : t.get i = (t.get (i % 2 ^ t.depth)).map (fun pr => { pr with index := i }) := by
    unfold SMT.get
    rw [hgo]
    rcases hgg : getGo t.db (i % 2 ^ t.depth) t.root 0 [] t.depth with ⟨child, en, sibs⟩
    rcases hdb : dbGet t.db child with _ | e
    · simp [hdb, Except.map]
    · by_cases ht : e.tag.isSome <;> simp [hdb, ht, Except.map]
  refine ⟨?_, hget, ?_⟩
  · unfold SMT.existsB
    rw [existsGo_index_congr t.db i (i % 2 ^ t.depth) t.depth hb t.root]
  · unfold SMT.upsert
    rw [hget]
    rcases hres : t.get (i % 2 ^ t.depth) with e | pr
    · rfl
    · have hidx : pr.index = i % 2 ^ t.depth := (get_spec t _ pr hres).2.1
      simp only [Except.map, hidx]
      rw [delWalk_index_congr i (i % 2 ^ t.depth) t.depth hb t.db t.root]
      exact buildWalk_snd_congr t.hashFn i (i % 2 ^ t.depth) t.depth 0 (by simpa using hb) _ _ _ _

/-! #### C3 (amended): the verifier fails on too few siblings, ignores surplus -/

theorem popcount_mod_two_pow_succ (x r : Nat) :
    popcount (x % 2 ^ (r+1)) = x % 2 + popcount (x / 2 % 2 ^ r) := by
  have h21 : (2:Nat) ^ (r+1) = 2 * 2 ^ r := by
    rw [Nat.pow_succ]
    ring
  have h : x % 2 ^ (r+1) = x % 2 + 2 * (x / 2 % 2 ^ r) := by
    rw [h21, Nat.mod_mul]
  have h1 : (x % 2 + 2 * (x / 2 % 2 ^ r)) % 2 = x % 2 := by omega
  have h2 : (x % 2 + 2 * (x / 2 % 2 ^ r)) / 2 = x / 2 % 2 ^ r := by omega
  rw [h, popcount_eq, h1, h2]

theorem popcount_shift_succ (en i r : Nat) :
    popcount (en / 2 ^ i % 2 ^ (r+1)) = bitAt en i + popcount (en / 2 ^ (i+1) % 2 ^ r) := by
  have hdiv : en / 2 ^ i / 2 = en / 2 ^ (i+1) := by
    rw [Nat.div_div_eq_div_mul, ← Nat.pow_succ]
  rw [popcount_mod_two_pow_succ, hdiv]
  rfl

theorem verifyGo_count (h : Nat → Nat → Nat) (idx en : Nat) (sibs : List Nat) :
    ∀ rem i s root : Nat,
      (s + popcount (en / 2 ^ i % 2 ^ rem) ≤ sibs.length →
        ∃ r, verifyGo h idx en sibs i root s rem = .ok r) ∧
      (s ≤ sibs.length → sibs.length < s + popcount (en / 2 ^ i % 2 ^ rem) →
        verifyGo h idx en sibs i root s rem = .error .notValidHex) := by
  intro rem
  induction rem with
  | zero =>
      intro i s root
      refine ⟨fun _ => ⟨root, rfl⟩, fun hs hlt => ?_⟩
      rw [Nat.pow_zero, Nat.mod_one, popcount_zero] at hlt
      omega
  | succ n ih =>
      intro i s root
      have hpc := popcount_shift_succ en i n
      by_cases hbit : bitAt en i = 1
      · rw [hpc, hbit]
        constructor
        · intro hle
          have hslt : s < sibs.length := by omega
          rw [show verifyGo h idx en sibs i root s (n+1) =
                verifyGo h idx en sibs (i+1)
                  (if bitAt idx i = 1 then h sibs[s] root else h root sibs[s]) (s+1) n from by
            simp [verifyGo, hbit, List.getElem?_eq_getElem hslt]]
          exact (ih (i+1) (s+1) _).1 (by omega)
        · intro hs hlt
          rcases Nat.lt_or_ge s sibs.length with hslt | hsge
          · rw [show verifyGo h idx en sibs i root s (n+1) =
                  verifyGo h idx en sibs (i+1)
                    (if bitAt idx i = 1 then h sibs[s] root else h root sibs[s]) (s+1) n from by
              simp [verifyGo, hbit, List.getElem?_eq_getElem hslt]]
            exact (ih (i+1) (s+1) _).2 (by omega) (by omega)
          · have hnone : sibs[s]? = none := by
              rw [List.getElem?_eq_none]
              omega
            simp [verifyGo, hbit, hnone]
      · have hbit0 : bitAt en i = 0 := by
          have := bitAt_lt_two en i
          omega
        rw [hpc, hbit0]
        constructor
        · intro hle
          rw [show verifyGo h idx en sibs i root s (n+1) =
                verifyGo h idx en sibs (i+1)
                  (if bitAt idx i = 1 then h 0 root else h root 0) s n from by
            simp [verifyGo, hbit]]
          exact (ih (i+1) s _).1 (by omega)
        · intro hs hlt
          rw [show verifyGo h idx en sibs i root s (n+1) =
                verifyGo h idx en sibs (i+1)
                  (if bitAt idx i = 1 then h 0 root else h root 0) s n from by
            simp [verifyGo, hbit]]
          exact (ih (i+1) s _).2 hs (by omega)

/-- C3 (amended): the TypeScript verifier fails (the
`deserialise(undefined)` throw) exactly when the siblings list supplies
fewer than `popcount(enables mod 2^depth)` elements, producing no root at
all; with at least that many siblings it completes, silently ignoring any
surplus. -/
theorem verifyProof_sibling_count (t : SMT) (leaf i e : Nat) (s : List Nat) :
    (popcount (e % 2 ^ t.depth) ≤ s.length → ∃ b, t.verifyProof leaf i e s = .ok b) ∧
    (s.length < popcount (e % 2 ^ t.depth) → t.verifyProof leaf i e s = .error .notValidHex) := by
  have hc := verifyGo_count t.hashFn i e s t.depth 0 0 leaf
  rw [Nat.pow_zero, Nat.div_one] at hc
  constructor
  · intro hle
    obtain ⟨r, hr⟩ := hc.1 (by omega)
    exact ⟨r == t.root, by simp [SMT.verifyProof, hr, Except.map]⟩
  · intro hlt
    have := hc.2 (by omega) (by omega)
    simp [SMT.verifyProof, this, Except.map]

/-- Witness for `verifyProof_sibling_count`: on a depth-2 tree, a surplus
sibling with `enables = 0` is accepted, and a missing sibling with
`enables = 1` makes verification fail. -/
theorem verifyProof_sibling_count_witness :
    (∃ b, tFix1.verifyProof 0 0 0 [5] = .ok b) ∧
    tFix1.verifyProof 0 0 1 [] = .error .notValidHex := by
  have h0 : popcount (0 % 2 ^ tFix1.depth) = 0 := by
    norm_num [popcount_zero]
  have h1 : popcount (1 % 2 ^ tFix1.depth) = 1 := by
    have h11 : (1:Nat) % 2 ^ tFix1.depth = 1 := rfl
    rw [h11, popcount_eq]
    norm_num [popcount_zero]
  refine ⟨(verifyProof_sibling_count tFix1 0 0 0 [5]).1 ?_,
          (verifyProof_sibling_count tFix1 0 0 1 []).2 ?_⟩
  · rw [h0]
    simp
  · rw [h1]
    simp

/-! #### C5: reference and Yul verifier equivalence -/

theorem yul_step_eq_solHash (raw : Nat → Nat → Nat)
    (H : ∀ l r, raw l r = raw 0 0 → l = 0 ∧ r = 0) (a b : Nat) :
    (if raw a b = raw 0 0 then 0 else raw a b) = solHash raw a b := by
  by_cases hz : a = 0 ∧ b = 0
  · obtain ⟨ha, hb⟩ := hz
    subst ha; subst hb
    simp [solHash]
  · have hne : raw a b ≠ raw 0 0 := fun hc => hz (H a b hc)
    simp [solHash, hne, hz]

theorem refGo_yulGo_equiv (raw : Nat → Nat → Nat)
    (H : ∀ l r, raw l r = raw 0 0 → l = 0 ∧ r = 0) (idx en : Nat) (sibs : List Nat) :
    ∀ rem i s leaf : Nat,
      (∃ r, refGo raw idx en sibs i leaf s rem = .ok r ∧
            yulGo raw idx en sibs i leaf s rem = .ok r) ∨
      (refGo raw idx en sibs i leaf s rem = .error .arrayOutOfBounds ∧
       yulGo raw idx en sibs i leaf s rem = .error .emptyRevert) := by
  intro rem
  induction rem with
  | zero => intro i s leaf; exact .inl ⟨leaf, rfl, rfl⟩
  | succ n ih =>
      intro i s leaf
      by_cases hbit : bitAt en i = 1
      · rcases Nat.lt_or_ge s sibs.length with hslt | hsge
        · have hsib : sibs[s]? = some sibs[s] := List.getElem?_eq_getElem hslt
          have hgetD : sibs.getD s 0 = sibs[s] := by
            rw [List.getD_eq_getElem?_getD, hsib]
            rfl
          have hlen : ¬ sibs.length ≤ s := by omega
          rw [show refGo raw idx en sibs i leaf s (n+1) =
                refGo raw idx en sibs (i+1)
                  (if bitAt idx i = 1 then solHash raw sibs[s] leaf
                   else solHash raw leaf sibs[s]) (s+1) n from by
            simp [refGo, hbit, hsib]]
          rw [show yulGo raw idx en sibs i leaf s (n+1) =
                yulGo raw idx en sibs (i+1)
                  (if bitAt idx i = 1 then solHash raw sibs[s] leaf
                   else solHash raw leaf sibs[s]) (s+1) n from by
            by_cases hdir : bitAt idx i = 1 <;>
              simp [yulGo, hbit, hlen, hgetD, hsib, hdir, yul_step_eq_solHash raw H]]
          exact ih (i+1) (s+1) _
        · have hnone : sibs[s]? = none := by
            rw [List.getElem?_eq_none]
            omega
          have hlen : sibs.length ≤ s := hsge
          right
          constructor <;> simp [refGo, yulGo, hbit, hnone, hlen]
      · rw [show refGo raw idx en sibs i leaf s (n+1) =
              refGo raw idx en sibs (i+1)
                (if bitAt idx i = 1 then solHash raw 0 leaf else solHash raw leaf 0) s n from by
          simp [refGo, hbit]]
        rw [show yulGo raw idx en sibs i leaf s (n+1) =
              yulGo raw idx en sibs (i+1)
                (if bitAt idx i = 1 then solHash raw 0 leaf else solHash raw leaf 0) s n from by
          by_cases hdir : bitAt idx i = 1 <;>
            simp [yulGo, hbit, hdir, yul_step_eq_solHash raw H]]
        exact ih (i+1) s _

/-- C5: assuming only `(0,0)` collides with the hardcoded
`keccak256(abi.encode(0,0))` digest, the reference Solidity fold
`computeRoot_REF` and the optimised Yul fold `computeRoot` either both
revert or both succeed with the identical root, on every input. -/
theorem computeRoot_ref_yul_equiv (raw : Nat → Nat → Nat)
    (H : ∀ l r, raw l r = raw 0 0 → l = 0 ∧ r = 0)
    (d leaf i e : Nat) (s : List Nat) :
    (∃ r, computeRoot_REF raw d leaf i e s = .ok r ∧
          computeRoot raw d leaf i e s = .ok r) ∨
    ((computeRoot_REF raw d leaf i e s).toOption = none ∧
     (computeRoot raw d leaf i e s).toOption = none) := by
  unfold computeRoot_REF computeRoot
  by_cases h1 : 256 < d
  · right
    simp [h1, Except.toOption]
  · by_cases h2 : d < 256 ∧ 2 ^ d ≤ i
    · right
      simp [h1, h2, Except.toOption]
    · simp only [h1, h2, if_neg, not_false_iff, if_false]
      rcases refGo_yulGo_equiv raw H i e s d 0 0 leaf with hok | ⟨hr, hy⟩
      · exact .inl hok
      · right
        rw [hr, hy]
        exact ⟨rfl, rfl⟩

/-- Witness for `computeRoot_ref_yul_equiv` at the injective pairing
`rawPair` and a concrete one-sibling input. -/
theorem computeRoot_ref_yul_equiv_witness :
    (∃ r, computeRoot_REF rawPair 2 5 1 1 [9] = .ok r ∧
          computeRoot rawPair 2 5 1 1 [9] = .ok r) ∨
    ((computeRoot_REF rawPair 2 5 1 1 [9]).toOption = none ∧
     (computeRoot rawPair 2 5 1 1 [9]).toOption = none) :=
  computeRoot_ref_yul_equiv rawPair
    (by
      intro l r h
      simp [rawPair] at h
      omega) 2 5 1 1 [9]

/-! #### Bottom-step (snoc) unfoldings of the top-down walk functions -/

theorem walkN_snoc (db : DB) (idx : Nat) :
    ∀ (rem i child : Nat),
      walkN db idx child i (rem+1) =
        childOf db (walkN db idx child (i+1) rem) (bitAt idx i) := by
  intro rem
  induction rem with
  | zero => intro i child; rfl
  | succ n ih =>
      intro i child
      have hp : i + 1 + n = i + (n + 1) := by omega
      calc walkN db idx child i (n+2)
          = walkN db idx (childOf db child (bitAt idx (i+(n+1)))) i (n+1) := rfl
        _ = childOf db (walkN db idx (childOf db child (bitAt idx (i+(n+1)))) (i+1) n)
              (bitAt idx i) := ih i _
        _ = childOf db (walkN db idx child (i+1) (n+1)) (bitAt idx i) := by
              rw [show walkN db idx child (i+1) (n+1) =
                    walkN db idx (childOf db child (bitAt idx (i+1+n))) (i+1) n from rfl, hp]

theorem pathConsistentB_snoc (h : Nat → Nat → Nat) (db : DB) (idx : Nat) :
    ∀ (rem i child : Nat),
      pathConsistentB h db idx child i (rem+1) =
        (pathConsistentB h db idx child (i+1) rem &&
          (walkN db idx child (i+1) rem ==
            (if bitAt idx i = 1 then
              h (childOf db (walkN db idx child (i+1) rem) (1 - bitAt idx i))
                (childOf db (walkN db idx child (i+1) rem) (bitAt idx i))
             else
              h (childOf db (walkN db idx child (i+1) rem) (bitAt idx i))
                (childOf db (walkN db idx child (i+1) rem) (1 - bitAt idx i))))) := by
  intro rem
  induction rem with
  | zero =>
      intro i child
      simp only [pathConsistentB, walkN, Nat.add_zero, Bool.true_and, Bool.and_true]
  | succ n ih =>
      intro i child
      have hp : i + 1 + n = i + (n + 1) := by omega
      calc pathConsistentB h db idx child i (n+2)
          = ((child == (if bitAt idx (i+(n+1)) = 1 then
                h (childOf db child (1 - bitAt idx (i+(n+1)))) (childOf db child (bitAt idx (i+(n+1))))
               else
                h (childOf db child (bitAt idx (i+(n+1)))) (childOf db child (1 - bitAt idx (i+(n+1)))))) &&
              pathConsistentB h db idx (childOf db child (bitAt idx (i+(n+1)))) i (n+1)) := rfl
        _ = _ := by
              rw [ih i _]
              rw [show pathConsistentB h db idx child (i+1) (n+1) =
                    ((child == (if bitAt idx (i+1+n) = 1 then
                        h (childOf db child (1 - bitAt idx (i+1+n))) (childOf db child (bitAt idx (i+1+n)))
                       else
                        h (childOf db child (bitAt idx (i+1+n))) (childOf db child (1 - bitAt idx (i+1+n))))) &&
                      pathConsistentB h db idx (childOf db child (bitAt idx (i+1+n))) (i+1) n) from rfl]
              rw [show walkN db idx child (i+1) (n+1) =
                    walkN db idx (childOf db child (bitAt idx (i+1+n))) (i+1) n from rfl, hp]
              rw [Bool.and_assoc]

theorem walkSibs_snoc (db : DB) (idx : Nat) :
    ∀ (rem i child : Nat),
      walkSibs db idx child i (rem+1) =
        walkSibs db idx child (i+1) rem ++
          [childOf db (walkN db idx child (i+1) rem) (1 - bitAt idx i)] := by
  intro rem
  induction rem with
  | zero => intro i child; rfl
  | succ n ih =>
      intro i child
      have hp : i + 1 + n = i + (n + 1) := by omega
      calc walkSibs db idx child i (n+2)
          = childOf db child (1 - bitAt idx (i+(n+1))) ::
              walkSibs db idx (childOf db child (bitAt idx (i+(n+1)))) i (n+1) := rfl
        _ = _ := by
              rw [ih i _]
              rw [show walkSibs db idx child (i+1) (n+1) =
                    childOf db child (1 - bitAt idx (i+1+n)) ::
                      walkSibs db idx (childOf db child (bitAt idx (i+1+n))) (i+1) n from rfl]
              rw [show walkN db idx child (i+1) (n+1) =
                    walkN db idx (childOf db child (bitAt idx (i+1+n))) (i+1) n from rfl, hp]
              rfl

theorem pathNodes_snoc (db : DB) (idx : Nat) :
    ∀ (rem i child : Nat),
      pathNodes db idx child i (rem+1) =
        pathNodes db idx child (i+1) rem ++ [walkN db idx child (i+1) rem] := by
  intro rem
  induction rem with
  | zero => intro i child; rfl
  | succ n ih =>
      intro i child
      have hp : i + 1 + n = i + (n + 1) := by omega
      calc pathNodes db idx child i (n+2)
          = child :: pathNodes db idx (childOf db child (bitAt idx (i+(n+1)))) i (n+1) := rfl
        _ = _ := by
              rw [ih i _]
              rw [show pathNodes db idx child (i+1) (n+1) =
                    child :: pathNodes db idx (childOf db child (bitAt idx (i+1+n))) (i+1) n from rfl]
              rw [show walkN db idx child (i+1) (n+1) =
                    walkN db idx (childOf db child (bitAt idx (i+1+n))) (i+1) n from rfl, hp]
              rfl

/-! #### What `buildWalk` writes -/

theorem buildChain_cons (h : Nat → Nat → Nat) (idx : Nat) (child : Nat) (sibs : List Nat)
    (i rem : Nat) :
    buildChain h idx child sibs i (rem+1) =
      (if bitAt idx i = 1 then h (sibs.headD 0) child else h child (sibs.headD 0)) ::
        buildChain h idx
          (if bitAt idx i = 1 then h (sibs.headD 0) child else h child (sibs.headD 0))
          sibs.tail (i+1) rem := by
  by_cases hj : bitAt idx i = 1 <;> simp [buildChain, hj]

theorem buildWalk_spec (h : Nat → Nat → Nat) (idx : Nat) :
    ∀ (rem : Nat) (db : DB) (child : Nat) (sibs : List Nat) (i : Nat),
      (buildChain h idx child sibs i rem).Nodup →
      (buildWalk h idx db child sibs i rem).2 =
          (buildChain h idx child sibs i rem).getLastD child ∧
      pathConsistentB h (buildWalk h idx db child sibs i rem).1 idx
          ((buildChain h idx child sibs i rem).getLastD child) i rem = true ∧
      walkN (buildWalk h idx db child sibs i rem).1 idx
          ((buildChain h idx child sibs i rem).getLastD child) i rem = child ∧
      (∀ k, k ∉ buildChain h idx child sibs i rem →
        dbGet (buildWalk h idx db child sibs i rem).1 k = dbGet db k) := by
  intro rem
  induction rem with
  | zero =>
      intro db child sibs i _
      exact ⟨rfl, rfl, rfl, fun k _ => rfl⟩
  | succ n ih =>
      intro db child sibs i hnd
      by_cases hj1 : bitAt idx i = 1
      · have h1mj : 1 - bitAt idx i = 0 := by rw [hj1]
        have hbw : buildWalk h idx db child sibs i (n+1) =
            buildWalk h idx (dbSet db (h (sibs.headD 0) child) ⟨sibs.headD 0, child, none⟩)
              (h (sibs.headD 0) child) sibs.tail (i+1) n := by
          simp [buildWalk, hj1]
        have hbc : buildChain h idx child sibs i (n+1) =
            h (sibs.headD 0) child :: buildChain h idx (h (sibs.headD 0) child) sibs.tail (i+1) n := by
          simp [buildChain, hj1]
        rw [hbc] at hnd
        rw [hbw, hbc]
        have hPQ := (List.nodup_cons.mp hnd).1
        have hndQ := (List.nodup_cons.mp hnd).2
        obtain ⟨ihroot, ihpc, ihwalk, ihframe⟩ :=
          ih (dbSet db (h (sibs.headD 0) child) ⟨sibs.headD 0, child, none⟩)
            (h (sibs.headD 0) child) sibs.tail (i+1) hndQ
        rw [List.getLastD_cons] at *
        have hdbP : dbGet (buildWalk h idx
            (dbSet db (h (sibs.headD 0) child) ⟨sibs.headD 0, child, none⟩)
            (h (sibs.headD 0) child) sibs.tail (i+1) n).1 (h (sibs.headD 0) child) =
            some ⟨sibs.headD 0, child, none⟩ := by
          rw [ihframe _ hPQ]
          exact dbGet_dbSet_self _ _ _
        have hchild : childOf (buildWalk h idx
            (dbSet db (h (sibs.headD 0) child) ⟨sibs.headD 0, child, none⟩)
            (h (sibs.headD 0) child) sibs.tail (i+1) n).1 (h (sibs.headD 0) child)
            (bitAt idx i) = child := by
          rw [hj1]
          simp only [childOf]
          rw [hdbP]
          simp
        have hsib : childOf (buildWalk h idx
            (dbSet db (h (sibs.headD 0) child) ⟨sibs.headD 0, child, none⟩)
            (h (sibs.headD 0) child) sibs.tail (i+1) n).1 (h (sibs.headD 0) child)
            (1 - bitAt idx i) = sibs.headD 0 := by
          rw [h1mj]
          simp only [childOf]
          rw [hdbP]
          simp
        refine ⟨ihroot, ?_, ?_, ?_⟩
        · rw [pathConsistentB_snoc, ihwalk, Bool.and_eq_true]
          refine ⟨ihpc, ?_⟩
          rw [if_pos hj1, hchild, hsib]
          simp
        · rw [walkN_snoc, ihwalk, hchild]
        · intro k hk
          rw [List.mem_cons] at hk
          push_neg at hk
          rw [ihframe k hk.2]
          exact dbGet_dbSet_ne _ _ _ k hk.1
      · have h1mj : 1 - bitAt idx i = 1 := by
          have := bitAt_lt_two idx i
          omega
        have hbw : buildWalk h idx db child sibs i (n+1) =
            buildWalk h idx (dbSet db (h child (sibs.headD 0)) ⟨child, sibs.headD 0, none⟩)
              (h child (sibs.headD 0)) sibs.tail (i+1) n := by
          simp [buildWalk, hj1]
        have hbc : buildChain h idx child sibs i (n+1) =
            h child (sibs.headD 0) :: buildChain h idx (h child (sibs.headD 0)) sibs.tail (i+1) n := by
          simp [buildChain, hj1]
        rw [hbc] at hnd
        rw [hbw, hbc]
        have hPQ := (List.nodup_cons.mp hnd).1
        have hndQ := (List.nodup_cons.mp hnd).2
        obtain ⟨ihroot, ihpc, ihwalk, ihframe⟩ :=
          ih (dbSet db (h child (sibs.headD 0)) ⟨child, sibs.headD 0, none⟩)
            (h child (sibs.headD 0)) sibs.tail (i+1) hndQ
        rw [List.getLastD_cons] at *
        have hj0 : bitAt idx i = 0 := by
          have := bitAt_lt_two idx i
          omega
        have hdbP : dbGet (buildWalk h idx
            (dbSet db (h child (sibs.headD 0)) ⟨child, sibs.headD 0, none⟩)
            (h child (sibs.headD 0)) sibs.tail (i+1) n).1 (h child (sibs.headD 0)) =
            some ⟨child, sibs.headD 0, none⟩ := by
          rw [ihframe _ hPQ]
          exact dbGet_dbSet_self _ _ _
        have hchild : childOf (buildWalk h idx
            (dbSet db (h child (sibs.headD 0)) ⟨child, sibs.headD 0, none⟩)
            (h child (sibs.headD 0)) sibs.tail (i+1) n).1 (h child (sibs.headD 0))
            (bitAt idx i) = child := by
          rw [hj0]
          simp only [childOf]
          rw [hdbP]
          simp
        have hsib : childOf (buildWalk h idx
            (dbSet db (h child (sibs.headD 0)) ⟨child, sibs.headD 0, none⟩)
            (h child (sibs.headD 0)) sibs.tail (i+1) n).1 (h child (sibs.headD 0))
            (1 - bitAt idx i) = sibs.headD 0 := by
          rw [h1mj]
          simp only [childOf]
          rw [hdbP]
          simp
        refine ⟨ihroot, ?_, ?_, ?_⟩
        · rw [pathConsistentB_snoc, ihwalk, Bool.and_eq_true]
          refine ⟨ihpc, ?_⟩
          rw [if_neg hj1, hchild, hsib]
          simp
        · rw [walkN_snoc, ihwalk, hchild]
        · intro k hk
          rw [List.mem_cons] at hk
          push_neg at hk
          rw [ihframe k hk.2]
          exact dbGet_dbSet_ne _ _ _ k hk.1

/-! #### Verifier replay of a consistent path -/

theorem countEnabled_succ_last (en : Nat) :
    ∀ rem i : Nat, countEnabled en i (rem+1) = countEnabled en i rem + bitAt en (i+rem) := by
  intro rem
  induction rem with
  | zero => intro i; simp [countEnabled]
  | succ n ih =>
      intro i
      have hp : i + 1 + n = i + (n + 1) := by omega
      calc countEnabled en i (n+2)
          = bitAt en i + countEnabled en (i+1) (n+1) := rfl
        _ = bitAt en i + (countEnabled en (i+1) n + bitAt en (i+1+n)) := by rw [ih]
        _ = countEnabled en i (n+1) + bitAt en (i+(n+1)) := by
              rw [show countEnabled en i (n+1) = bitAt en i + countEnabled en (i+1) n from rfl, hp]
              omega

theorem countEnabled_congr (en en' : Nat) :
    ∀ rem i : Nat, (∀ p, i ≤ p → p < i + rem → bitAt en p = bitAt en' p) →
      countEnabled en i rem = countEnabled en' i rem := by
  intro rem
  induction rem with
  | zero => intro i _; rfl
  | succ n ih =>
      intro i hb
      simp only [countEnabled, hb i (by omega) (by omega),
        ih (i+1) (fun p hp1 hp2 => hb p (by omega) (by omega))]

theorem verifyGo_enables_congr (h : Nat → Nat → Nat) (idx en en' : Nat) (sibs : List Nat) :
    ∀ rem i root s : Nat, (∀ p, i ≤ p → p < i + rem → bitAt en p = bitAt en' p) →
      verifyGo h idx en sibs i root s rem = verifyGo h idx en' sibs i root s rem := by
  intro rem
  induction rem with
  | zero => intro i root s _; rfl
  | succ n ih =>
      intro i root s hb
      have hbi : bitAt en i = bitAt en' i := hb i (by omega) (by omega)
      by_cases hbit : bitAt en i = 1
      · rcases hsib : sibs[s]? with _ | sib <;>
          simp only [verifyGo, hbit, hbi ▸ hbit, if_pos, hsib] <;>
          rw [ih (i+1) _ (s+1) (fun p hp1 hp2 => hb p (by omega) (by omega))]
      · simp only [verifyGo, hbit, hbi ▸ hbit, if_neg, not_false_iff]
        rw [ih (i+1) _ s (fun p hp1 hp2 => hb p (by omega) (by omega))]

theorem verifyGo_append (h : Nat → Nat → Nat) (idx en : Nat) (sibs ext : List Nat) :
    ∀ rem i root s : Nat, s + countEnabled en i rem ≤ sibs.length →
      verifyGo h idx en (sibs ++ ext) i root s rem = verifyGo h idx en sibs i root s rem := by
  intro rem
  induction rem with
  | zero => intro i root s _; rfl
  | succ n ih =>
      intro i root s hle
      by_cases hbit : bitAt en i = 1
      · have hcnt : countEnabled en i (n+1) = 1 + countEnabled en (i+1) n := by
          simp [countEnabled, hbit]
        have hslt : s < sibs.length := by omega
        have hsib : sibs[s]? = some sibs[s] := List.getElem?_eq_getElem hslt
        have hsib2 : (sibs ++ ext)[s]? = some sibs[s] := by
          rw [List.getElem?_append]
          simp [hslt, hsib]
        simp only [verifyGo, hbit, if_pos, hsib, hsib2]
        exact ih (i+1) _ (s+1) (by omega)
      · have hcnt : countEnabled en i (n+1) = countEnabled en (i+1) n := by
          have := bitAt_lt_two en i
          simp only [countEnabled]
          omega
        simp only [verifyGo, hbit, if_neg, not_false_iff]
        exact ih (i+1) _ s (by omega)

theorem verifyGo_succ (h : Nat → Nat → Nat) (idx en : Nat) (sibs : List Nat) :
    ∀ rem i root s : Nat,
      verifyGo h idx en sibs i root s (rem+1) =
        (verifyGo h idx en sibs i root s rem).bind (fun r =>
          if bitAt en (i+rem) = 1 then
            match sibs[s + countEnabled en i rem]? with
            | none => .error .notValidHex
            | some x => .ok (if bitAt idx (i+rem) = 1 then h x r else h r x)
          else .ok (if bitAt idx (i+rem) = 1 then h 0 r else h r 0)) := by
  intro rem
  induction rem with
  | zero =>
      intro i root s
      by_cases hbit : bitAt en i = 1
      · rcases hsib : sibs[s]? with _ | sib <;>
          simp [verifyGo, countEnabled, hbit, hsib, Except.bind]
      · simp [verifyGo, countEnabled, hbit, Except.bind]
  | succ n ih =>
      intro i root s
      have hp : i + 1 + n = i + (n + 1) := by omega
      have hcnt : s + countEnabled en i (n+1) =
          (s + bitAt en i) + countEnabled en (i+1) n := by
        simp only [countEnabled]
        omega
      by_cases hbit : bitAt en i = 1
      · rcases hsib : sibs[s]? with _ | sib
        · have hL : verifyGo h idx en sibs i root s (n+2) = .error .notValidHex := by
            simp [verifyGo, hbit, hsib]
          have hR : verifyGo h idx en sibs i root s (n+1) = .error .notValidHex := by
            simp [verifyGo, hbit, hsib]
          rw [hL, hR]
          rfl
        · rw [show verifyGo h idx en sibs i root s (n+2) =
                verifyGo h idx en sibs (i+1)
                  (if bitAt idx i = 1 then h sib root else h root sib) (s+1) (n+1) from by
              simp [verifyGo, hbit, hsib]]
          rw [ih (i+1) _ (s+1)]
          rw [show verifyGo h idx en sibs i root s (n+1) =
                verifyGo h idx en sibs (i+1)
                  (if bitAt idx i = 1 then h sib root else h root sib) (s+1) n from by
              simp [verifyGo, hbit, hsib]]
          rw [hp, hcnt, hbit]
      · rw [show verifyGo h idx en sibs i root s (n+2) =
              verifyGo h idx en sibs (i+1)
                (if bitAt idx i = 1 then h 0 root else h root 0) s (n+1) from by
            simp [verifyGo, hbit]]
        rw [ih (i+1) _ s]
        rw [show verifyGo h idx en sibs i root s (n+1) =
              verifyGo h idx en sibs (i+1)
                (if bitAt idx i = 1 then h 0 root else h root 0) s n from by
            simp [verifyGo, hbit]]
        have hbit0 : bitAt en i = 0 := by
          have := bitAt_lt_two en i
          omega
        rw [hp, hcnt, hbit0]
        norm_num

theorem enOf_succ_pos (db : DB) (idx child n : Nat)
    (hs : 0 < childOf db child (1 - bitAt idx n)) :
    enOf db idx child 0 (n+1) =
      2 ^ n ||| enOf db idx (childOf db child (bitAt idx n)) 0 n := by
  simp [enOf, hs]

theorem enOf_succ_zero (db : DB) (idx child n : Nat)
    (hs : ¬ 0 < childOf db child (1 - bitAt idx n)) :
    enOf db idx child 0 (n+1) =
      enOf db idx (childOf db child (bitAt idx n)) 0 n := by
  simp [enOf, Nat.le_zero.mp (Nat.not_lt.mp hs)]

theorem sibsOf_succ_pos (db : DB) (idx child n : Nat)
    (hs : 0 < childOf db child (1 - bitAt idx n)) :
    sibsOf db idx child 0 (n+1) =
      sibsOf db idx (childOf db child (bitAt idx n)) 0 n ++
        [childOf db child (1 - bitAt idx n)] := by
  simp [sibsOf, hs]

theorem sibsOf_succ_zero (db : DB) (idx child n : Nat)
    (hs : ¬ 0 < childOf db child (1 - bitAt idx n)) :
    sibsOf db idx child 0 (n+1) =
      sibsOf db idx (childOf db child (bitAt idx n)) 0 n := by
  simp [sibsOf, Nat.le_zero.mp (Nat.not_lt.mp hs)]

theorem enOf_lt_base (db : DB) (idx child rem : Nat) :
    enOf db idx child 0 rem < 2 ^ rem := by
  simpa using enOf_lt db idx rem child 0

theorem pathConsistentB_succ (h : Nat → Nat → Nat) (db : DB) (idx child n : Nat) :
    pathConsistentB h db idx child 0 (n+1) =
      ((child == (if bitAt idx n = 1 then
          h (childOf db child (1 - bitAt idx n)) (childOf db child (bitAt idx n))
        else
          h (childOf db child (bitAt idx n)) (childOf db child (1 - bitAt idx n)))) &&
        pathConsistentB h db idx (childOf db child (bitAt idx n)) 0 n) := by
  simp [pathConsistentB]

theorem walkN_base_succ (db : DB) (idx child n : Nat) :
    walkN db idx child 0 (n+1) =
      walkN db idx (childOf db child (bitAt idx n)) 0 n := by
  simp [walkN]

theorem countEnabled_enOf (db : DB) (idx : Nat) :
    ∀ rem child : Nat,
      countEnabled (enOf db idx child 0 rem) 0 rem =
        (sibsOf db idx child 0 rem).length := by
  intro rem
  induction rem with
  | zero => intro child; rfl
  | succ n ih =>
      intro child
      by_cases hs : 0 < childOf db child (1 - bitAt idx n)
      · rw [enOf_succ_pos db idx child n hs, sibsOf_succ_pos db idx child n hs]
        rw [countEnabled_succ_last, countEnabled_congr
          (2 ^ n ||| enOf db idx (childOf db child (bitAt idx n)) 0 n)
          (enOf db idx (childOf db child (bitAt idx n)) 0 n) n 0
          (fun p hp1 hp2 => bitAt_two_pow_or_ne n _ p (by omega))]
        rw [ih, Nat.zero_add, bitAt_two_pow_or_self]
        simp
      · rw [enOf_succ_zero db idx child n hs, sibsOf_succ_zero db idx child n hs]
        rw [countEnabled_succ_last, ih, Nat.zero_add,
          bitAt_eq_zero_of_lt _ n (enOf_lt_base db idx _ n)]
        omega

theorem verifyGo_replay (h : Nat → Nat → Nat) (db : DB) (idx : Nat) :
    ∀ rem child : Nat, pathConsistentB h db idx child 0 rem = true →
      verifyGo h idx (enOf db idx child 0 rem) (sibsOf db idx child 0 rem) 0
        (walkN db idx child 0 rem) 0 rem = .ok child := by
  intro rem
  induction rem with
  | zero => intro child _; rfl
  | succ n ih =>
      intro child hpc
      rw [pathConsistentB_succ, Bool.and_eq_true, beq_iff_eq] at hpc
      obtain ⟨hchk, hpc'⟩ := hpc
      by_cases hs : 0 < childOf db child (1 - bitAt idx n)
      · rw [enOf_succ_pos db idx child n hs, sibsOf_succ_pos db idx child n hs,
          walkN_base_succ, verifyGo_succ]
        rw [verifyGo_enables_congr h idx
          (2 ^ n ||| enOf db idx (childOf db child (bitAt idx n)) 0 n)
          (enOf db idx (childOf db child (bitAt idx n)) 0 n) _ n 0 _ 0
          (fun p hp1 hp2 => bitAt_two_pow_or_ne n _ p (by omega))]
        rw [verifyGo_append h idx _
          (sibsOf db idx (childOf db child (bitAt idx n)) 0 n)
          [childOf db child (1 - bitAt idx n)] n 0 _ 0
          (by rw [countEnabled_enOf]; omega)]
        rw [ih _ hpc']
        have hbtop : bitAt (2 ^ n |||
            enOf db idx (childOf db child (bitAt idx n)) 0 n) n = 1 :=
          bitAt_two_pow_or_self n _
        have hcnt : countEnabled (2 ^ n |||
            enOf db idx (childOf db child (bitAt idx n)) 0 n) 0 n =
            (sibsOf db idx (childOf db child (bitAt idx n)) 0 n).length := by
          rw [countEnabled_congr _
            (enOf db idx (childOf db child (bitAt idx n)) 0 n) n 0
            (fun p hp1 hp2 => bitAt_two_pow_or_ne n _ p (by omega))]
          exact countEnabled_enOf db idx n _
        rw [show (Except.ok (childOf db child (bitAt idx n)) :
              Except TSError Nat).bind = fun f =>
              f (childOf db child (bitAt idx n)) from rfl]
        simp only [Nat.zero_add, hbtop, if_pos, hcnt, List.getElem?_concat_length]
        by_cases hdir : bitAt idx n = 1
        · rw [if_pos hdir]
          rw [if_pos hdir] at hchk
          rw [← hchk]
        · rw [if_neg hdir]
          rw [if_neg hdir] at hchk
          rw [← hchk]
      · have hs0 : childOf db child (1 - bitAt idx n) = 0 := by omega
        rw [enOf_succ_zero db idx child n hs, sibsOf_succ_zero db idx child n hs,
          walkN_base_succ, verifyGo_succ]
        rw [ih _ hpc']
        have hb0 : bitAt (enOf db idx (childOf db child (bitAt idx n)) 0 n) n = 0 :=
          bitAt_eq_zero_of_lt _ _ (enOf_lt_base db idx _ n)
        rw [show (Except.ok (childOf db child (bitAt idx n)) :
              Except TSError Nat).bind = fun f =>
              f (childOf db child (bitAt idx n)) from rfl]
        simp only [Nat.zero_add, hb0]
        rw [if_neg (show ¬ (0:Nat) = 1 by omega)]
        rw [hs0] at hchk
        by_cases hdir : bitAt idx n = 1
        · rw [if_pos hdir]
          rw [if_pos hdir] at hchk
          rw [← hchk]
        · rw [if_neg hdir]
          rw [if_neg hdir] at hchk
          rw [← hchk]

/-! #### C1: insert → get → verify round-trip -/

/-- C1: if `insert i v` succeeds (for a valid index `i < 2^depth`) and the
freshly written path digests are collision-free (the new leaf and the new
parent chain are pairwise distinct — guaranteed by keccak up to negligible
collision probability), then `get i` on the post-insert tree returns
`exists = true` with leaf `v`, and `verifyProof` accepts that proof against
the post-insert root. -/
theorem insert_roundtrip (t : SMT) (i v : Nat) (p : UpdateProof) (t' : SMT)
    (hins : t.insert i v = (.ok p, t')) (hi : i < 2 ^ t.depth)
    (hnodup : (v :: buildChain t.hashFn i v
        ((delWalk i t.db t.root t.depth).2).reverse 0 t.depth).Nodup) :
    ∃ pr : Proof, t'.get i = .ok pr ∧ pr.exists? = true ∧ pr.leaf = v ∧
      t'.verifyProof pr.leaf pr.index pr.enables pr.siblings = .ok true := by
  unfold SMT.insert at hins
  by_cases hex : t.existsB i
  · simp [hex] at hins
  · rw [if_neg hex] at hins
    unfold SMT.upsert at hins
    rcases hget : t.get i with e | proof
    · rw [hget] at hins
      simp at hins
    · rw [hget] at hins
      have hidx : proof.index = i := (get_spec t i proof hget).2.1
      have hins2 : ((Except.ok ⟨proof, v⟩ : Except TSError UpdateProof),
          ({ depth := t.depth,
             db := (buildWalk t.hashFn proof.index
               (dbSet (delWalk proof.index t.db t.root t.depth).1 v ⟨i, v, some 1⟩) v
               ((delWalk proof.index t.db t.root t.depth).2).reverse 0 t.depth).1,
             root := (buildWalk t.hashFn proof.index
               (dbSet (delWalk proof.index t.db t.root t.depth).1 v ⟨i, v, some 1⟩) v
               ((delWalk proof.index t.db t.root t.depth).2).reverse 0 t.depth).2,
             hashFn := t.hashFn } : SMT)) = (.ok p, t') := hins
      rw [hidx] at hins2
      have ht' : t' =
          ({ depth := t.depth,
             db := (buildWalk t.hashFn i
               (dbSet (delWalk i t.db t.root t.depth).1 v ⟨i, v, some 1⟩) v
               ((delWalk i t.db t.root t.depth).2).reverse 0 t.depth).1,
             root := (buildWalk t.hashFn i
               (dbSet (delWalk i t.db t.root t.depth).1 v ⟨i, v, some 1⟩) v
               ((delWalk i t.db t.root t.depth).2).reverse 0 t.depth).2,
             hashFn := t.hashFn } : SMT) := (congrArg Prod.snd hins2).symm
      have hdb : t'.db = (buildWalk t.hashFn i
          (dbSet (delWalk i t.db t.root t.depth).1 v ⟨i, v, some 1⟩) v
          ((delWalk i t.db t.root t.depth).2).reverse 0 t.depth).1 := by rw [ht']
      have hrt : t'.root = (buildWalk t.hashFn i
          (dbSet (delWalk i t.db t.root t.depth).1 v ⟨i, v, some 1⟩) v
          ((delWalk i t.db t.root t.depth).2).reverse 0 t.depth).2 := by rw [ht']
      have hhf : t'.hashFn = t.hashFn := by rw [ht']
      have hdp : t'.depth = t.depth := by rw [ht']
      have hvQ : v ∉ buildChain t.hashFn i v
          ((delWalk i t.db t.root t.depth).2).reverse 0 t.depth :=
        (List.nodup_cons.mp hnodup).1
      have hQN : (buildChain t.hashFn i v
          ((delWalk i t.db t.root t.depth).2).reverse 0 t.depth).Nodup :=
        (List.nodup_cons.mp hnodup).2
      obtain ⟨hroot, hpc, hwalk, hframe⟩ := buildWalk_spec t.hashFn i t.depth
        (dbSet (delWalk i t.db t.root t.depth).1 v ⟨i, v, some 1⟩) v
        ((delWalk i t.db t.root t.depth).2).reverse 0 hQN
      have hleafdb : dbGet (buildWalk t.hashFn i
          (dbSet (delWalk i t.db t.root t.depth).1 v ⟨i, v, some 1⟩) v
          ((delWalk i t.db t.root t.depth).2).reverse 0 t.depth).1 v =
          some ⟨i, v, some 1⟩ := by
        rw [hframe v hvQ]
        exact dbGet_dbSet_self _ _ _
      refine ⟨⟨true, v, some v, i,
        enOf (buildWalk t.hashFn i
          (dbSet (delWalk i t.db t.root t.depth).1 v ⟨i, v, some 1⟩) v
          ((delWalk i t.db t.root t.depth).2).reverse 0 t.depth).1 i
          ((buildChain t.hashFn i v
            ((delWalk i t.db t.root t.depth).2).reverse 0 t.depth).getLastD v) 0 t.depth,
        sibsOf (buildWalk t.hashFn i
          (dbSet (delWalk i t.db t.root t.depth).1 v ⟨i, v, some 1⟩) v
          ((delWalk i t.db t.root t.depth).2).reverse 0 t.depth).1 i
          ((buildChain t.hashFn i v
            ((delWalk i t.db t.root t.depth).2).reverse 0 t.depth).getLastD v) 0 t.depth⟩,
        ?_, rfl, rfl, ?_⟩
      · unfold SMT.get
        rw [hdb, hrt, hdp, getGo_spec]
        simp only [Nat.zero_or, List.append_nil]
        rw [hroot, hwalk, hleafdb]
        rfl
      · unfold SMT.verifyProof
        rw [hrt, hdp, hhf]
        have hrep := verifyGo_replay t.hashFn
          (buildWalk t.hashFn i
            (dbSet (delWalk i t.db t.root t.depth).1 v ⟨i, v, some 1⟩) v
            ((delWalk i t.db t.root t.depth).2).reverse 0 t.depth).1 i t.depth
          ((buildChain t.hashFn i v
            ((delWalk i t.db t.root t.depth).2).reverse 0 t.depth).getLastD v) hpc
        rw [hwalk] at hrep
        rw [hroot, hrep]
        simp [Except.map]

/-- Witness for `insert_roundtrip`: inserting leaf `5` at index 1 into an
empty depth-2 tree, then getting and verifying. -/
theorem insert_roundtrip_witness :
    ∃ pr : Proof, tFix1.get 1 = .ok pr ∧ pr.exists? = true ∧ pr.leaf = 5 ∧
      tFix1.verifyProof pr.leaf pr.index pr.enables pr.siblings = .ok true :=
  insert_roundtrip (SMT.new 2 rawFix) 1 5 ⟨⟨false, 0, none, 1, 0, []⟩, 5⟩ tFix1 rfl
    (by decide) (by decide)

/-! #### C8: updating a leaf to its current value preserves the root -/

theorem walk_frame_delete (db : DB) (idx k : Nat) :
    ∀ (rem c i : Nat), (∀ n ∈ pathNodes db idx c i rem, n ≠ k) →
      pathNodes (dbDelete db k) idx c i rem = pathNodes db idx c i rem ∧
      walkSibs (dbDelete db k) idx c i rem = walkSibs db idx c i rem := by
  intro rem
  induction rem with
  | zero => intro c i _; exact ⟨rfl, rfl⟩
  | succ n ih =>
      intro c i hm
      have hck : c ≠ k := hm c (by simp [pathNodes])
      have hc : ∀ j, childOf (dbDelete db k) c j = childOf db c j :=
        fun j => childOf_dbDelete_ne db k c j hck
      have hm' : ∀ x ∈ pathNodes db idx (childOf db c (bitAt idx (i+n))) i n, x ≠ k := by
        intro x hx
        exact hm x (by
          rw [show pathNodes db idx c i (n+1) =
              c :: pathNodes db idx (childOf db c (bitAt idx (i+n))) i n from rfl]
          exact List.mem_cons_of_mem _ hx)
      constructor
      · rw [show pathNodes (dbDelete db k) idx c i (n+1) =
            c :: pathNodes (dbDelete db k) idx (childOf (dbDelete db k) c (bitAt idx (i+n))) i n
            from rfl]
        rw [show pathNodes db idx c i (n+1) =
            c :: pathNodes db idx (childOf db c (bitAt idx (i+n))) i n from rfl]
        rw [hc, (ih _ i hm').1]
      · rw [show walkSibs (dbDelete db k) idx c i (n+1) =
            childOf (dbDelete db k) c (1 - bitAt idx (i+n)) ::
              walkSibs (dbDelete db k) idx (childOf (dbDelete db k) c (bitAt idx (i+n))) i n
            from rfl]
        rw [show walkSibs db idx c i (n+1) =
            childOf db c (1 - bitAt idx (i+n)) ::
              walkSibs db idx (childOf db c (bitAt idx (i+n))) i n from rfl]
        rw [hc, hc, (ih _ i hm').2]

theorem delWalk_sibs (idx : Nat) :
    ∀ (rem : Nat) (db : DB) (parent : Nat),
      (pathNodes db idx parent 0 rem).Nodup →
      (delWalk idx db parent rem).2 = walkSibs db idx parent 0 rem := by
  intro rem
  induction rem with
  | zero => intro db parent _; rfl
  | succ n ih =>
      intro db parent hnd
      rw [show pathNodes db idx parent 0 (n+1) =
          parent :: pathNodes db idx (childOf db parent (bitAt idx (0+n))) 0 n from rfl,
        List.nodup_cons] at hnd
      obtain ⟨hpm, hnd'⟩ := hnd
      have hm : ∀ x ∈ pathNodes db idx (childOf db parent (bitAt idx (0+n))) 0 n,
          x ≠ parent := fun x hx hxe => hpm (hxe ▸ hx)
      obtain ⟨hfp, hfs⟩ := walk_frame_delete db idx parent n
        (childOf db parent (bitAt idx (0+n))) 0 hm
      have hstep : (delWalk idx db parent (n+1)).2 =
          childOf db parent (1 - bitAt idx n) ::
            (delWalk idx (dbDelete db parent) (childOf db parent (bitAt idx n)) n).2 := by
        simp [delWalk]
      rw [hstep]
      rw [show walkSibs db idx parent 0 (n+1) =
          childOf db parent (1 - bitAt idx (0+n)) ::
            walkSibs db idx (childOf db parent (bitAt idx (0+n))) 0 n from rfl]
      rw [Nat.zero_add] at hfp hfs hnd' ⊢
      rw [ih (dbDelete db parent) (childOf db parent (bitAt idx n)) (by rw [hfp]; exact hnd')]
      rw [hfs]

theorem buildWalk_root (h : Nat → Nat → Nat) (idx : Nat) :
    ∀ (rem : Nat) (db : DB) (child : Nat) (sibs : List Nat) (i : Nat),
      (buildWalk h idx db child sibs i rem).2 =
        (buildChain h idx child sibs i rem).getLastD child := by
  intro rem
  induction rem with
  | zero => intro db child sibs i; rfl
  | succ n ih =>
      intro db child sibs i
      by_cases hj : bitAt idx i = 1 <;>
        simp only [buildWalk, buildChain, hj, if_pos, if_neg, not_false_iff, ih,
          List.getLastD_cons]

theorem chain_replay (h : Nat → Nat → Nat) (db : DB) (idx : Nat) :
    ∀ (rem child i : Nat), pathConsistentB h db idx child i rem = true →
      buildChain h idx (walkN db idx child i rem)
          ((walkSibs db idx child i rem).reverse) i rem =
        (pathNodes db idx child i rem).reverse := by
  intro rem
  induction rem with
  | zero => intro child i _; rfl
  | succ n ih =>
      intro child i hpc
      rw [pathConsistentB_snoc, Bool.and_eq_true, beq_iff_eq] at hpc
      obtain ⟨hpc', hNchk⟩ := hpc
      rw [walkSibs_snoc, walkN_snoc, pathNodes_snoc]
      rw [List.reverse_append, List.reverse_singleton, List.singleton_append]
      rw [List.reverse_append, List.reverse_singleton, List.singleton_append]
      rw [buildChain_cons]
      simp only [List.headD_cons, List.tail_cons]
      by_cases hj : bitAt idx i = 1
      · rw [if_pos hj] at hNchk ⊢
        have h1mj : 1 - bitAt idx i = 0 := by rw [hj]
        rw [← hNchk]
        rw [ih child (i+1) hpc']
      · rw [if_neg hj] at hNchk ⊢
        rw [← hNchk]
        rw [ih child (i+1) hpc']

theorem pathNodes_headD (db : DB) (idx : Nat) (rem c i : Nat) :
    (pathNodes db idx c i rem).headD (walkN db idx c i rem) = c := by
  cases rem <;> rfl

theorem reverse_getLastD (l : List Nat) (d : Nat) : l.reverse.getLastD d = l.headD d := by
  cases l with
  | nil => rfl
  | cons a tl =>
      rw [List.reverse_cons, List.getLastD_concat]
      rfl

/-- C8: if index `i` currently holds a leaf whose stored value equals its
own digest (as the engine always stores it), the path digests are
pairwise distinct and content-addressing holds along the path, then
`update i v` with `v` equal to the leaf's current value succeeds and
leaves the root exactly unchanged. -/
theorem update_same_value_root_unchanged (t : SMT) (i v : Nat) (e : Entry)
    (hex : t.existsB i = true)
    (hleaf : dbGet t.db (walkN t.db i t.root 0 t.depth) = some e)
    (htag : e.tag.isSome = true)
    (hval : e.c1 = walkN t.db i t.root 0 t.depth)
    (hv : v = e.c1)
    (hnd : (pathNodes t.db i t.root 0 t.depth).Nodup)
    (hpc : pathConsistentB t.hashFn t.db i t.root 0 t.depth = true) :
    (t.update i v).2.root = t.root ∧ ∃ p : UpdateProof, (t.update i v).1 = .ok p := by
  have hget : t.get i = .ok ⟨true, walkN t.db i t.root 0 t.depth, some e.c1, i,
      enOf t.db i t.root 0 t.depth, sibsOf t.db i t.root 0 t.depth⟩ := by
    unfold SMT.get
    rw [getGo_spec]
    simp only [Nat.zero_or, List.append_nil]
    rw [hleaf]
    simp [htag]
  have hupd : t.update i v = t.upsert i v := by
    unfold SMT.update
    rw [if_pos hex]
  have hup : t.upsert i v = (.ok ⟨⟨true, walkN t.db i t.root 0 t.depth, some e.c1, i,
      enOf t.db i t.root 0 t.depth, sibsOf t.db i t.root 0 t.depth⟩, v⟩,
      ({ depth := t.depth,
         db := (buildWalk t.hashFn i
           (dbSet (delWalk i t.db t.root t.depth).1 v ⟨i, v, some 1⟩) v
           ((delWalk i t.db t.root t.depth).2).reverse 0 t.depth).1,
         root := (buildWalk t.hashFn i
           (dbSet (delWalk i t.db t.root t.depth).1 v ⟨i, v, some 1⟩) v
           ((delWalk i t.db t.root t.depth).2).reverse 0 t.depth).2,
         hashFn := t.hashFn } : SMT)) := by
    unfold SMT.upsert
    rw [hget]
  have hvL : v = walkN t.db i t.root 0 t.depth := by rw [hv, hval]
  have hdel : (delWalk i t.db t.root t.depth).2 = walkSibs t.db i t.root 0 t.depth :=
    delWalk_sibs i t.depth t.db t.root hnd
  have hroot2 : (buildWalk t.hashFn i
      (dbSet (delWalk i t.db t.root t.depth).1 v ⟨i, v, some 1⟩) v
      ((delWalk i t.db t.root t.depth).2).reverse 0 t.depth).2 = t.root := by
    rw [buildWalk_root, hdel, hvL]
    rw [chain_replay t.hashFn t.db i t.depth t.root 0 hpc]
    rw [reverse_getLastD]
    exact pathNodes_headD t.db i t.depth t.root 0
  rw [hupd, hup]
  exact ⟨hroot2, ⟨_, rfl⟩⟩

/-- Witness for `update_same_value_root_unchanged` on the depth-2 tree
holding leaf `5` at index 1: updating it to `5` again keeps the root. -/
theorem update_same_value_root_unchanged_witness :
    (tFix1.update 1 5).2.root = tFix1.root ∧
    ∃ p : UpdateProof, (tFix1.update 1 5).1 = .ok p :=
  update_same_value_root_unchanged tFix1 1 5 ⟨1, 5, some 1⟩ (by decide) (by decide)
    (by decide) (by decide) (by decide) (by decide) (by decide)
